import Mathlib

/-!
A shallow embedding of `packbits.c` (PackBits run-length encoding, as in
MacPaint / TIFF): the encoder `packbits`, the decoder `unpackbits` and the
windowed decoder `unpackbits_window`, together with theorems about them.

Byte buffers are modelled as `List Nat` (values below 256); `uint16_t`
counters are modelled as `Nat`.  All C arithmetic on these counters stays
below 2^16 on the executions modelled here, and the comparisons in the C are
performed after integer promotion, so plain `Nat` arithmetic is faithful.
The one place where a `uint16_t` store can wrap, `destPos += count` in
`unpackbits_window`, is modelled with an explicit `% 65536`.

The C's `uint16_t` size parameters (`srcCount`, `destLimit`,
`destStartByte`) are modelled as `Nat`; a theorem about the C interface
constrains them to the representable range `≤ 0xFFFF` wherever its truth
depends on it (see the round-trip theorems), and quantifies more widely
only where that strengthens the statement.
-/

namespace Packbits

/-- `MIN_REPT`: minimum run to compress between differ blocks. -/
def MIN_REPT : Nat := 3

/-- `MAX_REPT`: maximum run of repeated bytes. -/
def MAX_REPT : Nat := 128

/-- `MAX_DIFF`: maximum run of differing bytes. -/
def MAX_DIFF : Nat := 128

/-- `ENCODE_DIFF(n) = (uint8_t)((n) - 1)` (C `int` arithmetic, truncated to
8 bits). -/
def ENCODE_DIFF (n : Nat) : Nat := (((n : Int) - 1) % 256).toNat

/-- `ENCODE_REPT(n) = (uint8_t)(1 - (n))`. -/
def ENCODE_REPT (n : Nat) : Nat := ((1 - (n : Int)) % 256).toNat

/-- `IS_DIFF(h) = (h) < 128`. -/
def IS_DIFF (h : Nat) : Bool := h < 128

/-- `IS_REPT(h) = (h) > 128`. -/
def IS_REPT (h : Nat) : Bool := 128 < h

/-- `DECODE_DIFF(h) = (uint8_t)((h) + 1)`. -/
def DECODE_DIFF (h : Nat) : Nat := (h + 1) % 256

/-- `DECODE_REPT(h) = (uint8_t)(1 - (h))`. -/
def DECODE_REPT (h : Nat) : Nat := ((1 - (h : Int)) % 256).toNat

/-- The `while (--srcCount != 0)` loop of `packbits` (`packbits.c` lines
78-153) plus the final flush (lines 139-152), one step per source byte.
`rest` is the unread source, `pending` the pending region (the
`bytesPending` bytes starting at `pendingPtr`; after entering a run it is
the run accumulated so far, which the C tracks through `bytesPending` and
`lastByte` alone), `runStart`, `lastByte` and `destCount` are as in the C.
Returns the bytes appended to the destination from this point on, or `none`
for the `return 0` failure paths. -/
def packLoop : List Nat → Bool → List Nat → Nat → Nat → Nat → Nat → Option (List Nat)
  | [], inRun, pending, _runStart, lastByte, destCount, destLimit =>
    -- Output the remainder
    if inRun then
      if destCount + 2 > destLimit then none
      else some [ENCODE_REPT pending.length, lastByte]
    else
      if destCount + 1 + pending.length > destLimit then none
      else some (ENCODE_DIFF pending.length :: pending)
  | currByte :: rest, inRun, pending, runStart, lastByte, destCount, destLimit =>
    -- currByte = *srcPtr++; ++bytesPending;
    let pending' := pending ++ [currByte]
    if inRun then
      if currByte ≠ lastByte ∨ pending'.length > MAX_REPT then
        -- End of run or maximum run length reached.
        if destCount + 2 > destLimit then none
        else
          (packLoop rest false [currByte] 0 currByte (destCount + 2) destLimit).map
            (fun out => ENCODE_REPT (pending'.length - 1) :: lastByte :: out)
      else
        packLoop rest true pending' runStart currByte destCount destLimit
    else
      if pending'.length > MAX_DIFF then
        -- We have as much differing data as we can output in one chunk.
        -- Output MAX_DIFF leaving one byte.
        if destCount + 1 + MAX_DIFF > destLimit then none
        else
          (packLoop rest false (pending'.drop MAX_DIFF) (pending'.length - MAX_DIFF - 1)
              currByte (destCount + 1 + MAX_DIFF) destLimit).map
            (fun out => ENCODE_DIFF MAX_DIFF :: (pending'.take MAX_DIFF ++ out))
      else if currByte = lastByte then
        if pending'.length - runStart ≥ MIN_REPT ∨ runStart = 0 then
          -- This is a worthwhile run
          if runStart ≠ 0 then
            -- Flush differing data out of input buffer
            if destCount + 1 + runStart > destLimit then none
            else
              (packLoop rest true (pending'.drop runStart) runStart currByte
                  (destCount + 1 + runStart) destLimit).map
                (fun out => ENCODE_DIFF runStart :: (pending'.take runStart ++ out))
          else
            packLoop rest true pending' runStart currByte destCount destLimit
        else
          packLoop rest false pending' runStart currByte destCount destLimit
      else
        packLoop rest false pending' (pending'.length - 1) currByte destCount destLimit

/-- `packbits` (`packbits.c` lines 59-154).  The source buffer is `src`
(so the C `srcCount` is `src.length`); `none` models the `return 0` failure
paths with their incomplete destination content, `some out` models a
successful return of `out.length` after writing `out`.  In the C both
`srcCount` and `destLimit` are `uint16_t`, so a statement about the C
interface may only instantiate them at values `≤ 0xFFFF`. -/
def packbits (src : List Nat) (destLimit : Nat) : Option (List Nat) :=
  match src with
  | [] => some []                 -- Need at least one byte to compress
  | b :: rest => packLoop rest false [b] 0 b 0 destLimit

/-- The numeric return value of the C `packbits`: `destCount` on success,
`0` on the failure paths. -/
def packbitsRet (src : List Nat) (destLimit : Nat) : Nat :=
  match packbits src destLimit with
  | none => 0
  | some out => out.length

/-- Reading `n` bytes at the front of the remaining source buffer.  On the
executions modelled by the theorems below `n ≤ l.length` always holds and
this is `l.take n`; the padding only gives the C's otherwise-unspecified
out-of-bounds reads a definite value. -/
def takeMem (l : List Nat) (n : Nat) : List Nat :=
  l.take n ++ List.replicate (n - l.length) 0

/-- The loop of `unpackbits` (`packbits.c` lines 183-230).  `fuel` is a
structural recursion bound: every iteration consumes at least one byte of
`srcRemaining`, so any `fuel ≥ srcRemaining` gives the loop's exact
behaviour.  The arm for an exhausted source buffer with
`srcRemaining ≠ 0` totalizes a state the C reaches only in the
`srcCount = 0` sentinel mode; there the C would next test `destRemaining`
and, if it is nonzero, read past the caller's buffer — undefined
behaviour.  The claim theorems below stay within the C's defined
executions: they use this arm only where `destRemaining = 0` makes the C
stop as well.  Returns the bytes written and the final values of
`srcRemaining` and `destRemaining`. -/
def unpackLoop : Nat → List Nat → Nat → Nat → List Nat × Nat × Nat
  | _, _, 0, destRemaining => ([], 0, destRemaining)
  | _, [], srcRemaining, destRemaining => ([], srcRemaining, destRemaining)
  | 0, _, srcRemaining, destRemaining => ([], srcRemaining, destRemaining)
  | fuel + 1, hdr :: rest, srcRemaining + 1, destRemaining =>
    if destRemaining = 0 then ([], srcRemaining + 1, 0)
    else if IS_DIFF hdr then
      -- This is a run of differing bytes
      let count0 := DECODE_DIFF hdr
      -- Check for overrun
      let count1 := if count0 > destRemaining then destRemaining else count0
      let count := if count1 > srcRemaining then srcRemaining else count1
      if count ≠ 0 then
        -- Copy the differing byte run
        let r := unpackLoop fuel (rest.drop count) (srcRemaining - count) (destRemaining - count)
        (takeMem rest count ++ r.1, r.2)
      else
        unpackLoop fuel rest srcRemaining destRemaining
    else if IS_REPT hdr then
      -- This is a run of repeated bytes
      let count0 := DECODE_REPT hdr
      -- Check for overrun
      let count := if count0 > destRemaining then destRemaining else count0
      if count ≠ 0 ∧ srcRemaining ≠ 0 then
        -- Copy the repeated byte run
        let r := unpackLoop fuel (rest.drop 1) (srcRemaining - 1) (destRemaining - count)
        (List.replicate count (rest.headD 0) ++ r.1, r.2)
      else
        unpackLoop fuel rest srcRemaining destRemaining
    else
      unpackLoop fuel rest srcRemaining destRemaining

/-- `unpackbits` (`packbits.c` lines 173-239).  Returns the C return value
together with the bytes written.  In the C both `srcCount` and `destLimit`
are `uint16_t`, so a statement about the C interface may only instantiate
them at values `≤ 0xFFFF`. -/
def unpackbits (src : List Nat) (srcCount destLimit : Nat) : Nat × List Nat :=
  let srcLimit := 0xffff
  let sr0 := if srcCount = 0 then srcLimit else srcCount
  let r := unpackLoop sr0 src sr0 destLimit
  (if srcCount = 0 then srcLimit - r.2.1 else destLimit - r.2.2, r.1)

/-- The loop of `unpackbits_window` (`packbits.c` lines 266-345); `fuel` as
in `unpackLoop`.  Returns the bytes written and the final
`destRemaining`. -/
def unpackWindowLoop : Nat → List Nat → Nat → Nat → Nat → Nat → Nat → List Nat × Nat
  | _, _, 0, destRemaining, _, _, _ => ([], destRemaining)
  | _, [], _, destRemaining, _, _, _ => ([], destRemaining)
  | 0, _, _, destRemaining, _, _, _ => ([], destRemaining)
  | fuel + 1, hdr :: rest, srcRemaining + 1, destRemaining, destPos, destStartByte, destLimit =>
    if destRemaining = 0 then ([], 0)
    else if IS_DIFF hdr then
      -- This is a run of differing bytes
      let count0 := DECODE_DIFF hdr
      -- Check for overrun
      let count1 := if count0 > destRemaining then destRemaining else count0
      let count := if count1 > srcRemaining then srcRemaining else count1
      if count ≠ 0 then
        -- Check if the decoded bytes lie within the specified window
        if destPos + count > destStartByte ∧ destPos < destStartByte + destLimit then
          let offset := if destPos ≥ destStartByte then 0 else destStartByte - destPos
          let copyCount0 := count - offset
          let copyCount := if copyCount0 > destRemaining then destRemaining else copyCount0
          let r := unpackWindowLoop fuel (rest.drop count) (srcRemaining - count)
              (destRemaining - copyCount) ((destPos + count) % 65536) destStartByte destLimit
          (takeMem (rest.drop offset) copyCount ++ r.1, r.2)
        else
          unpackWindowLoop fuel (rest.drop count) (srcRemaining - count)
            destRemaining ((destPos + count) % 65536) destStartByte destLimit
      else
        unpackWindowLoop fuel rest srcRemaining destRemaining destPos destStartByte destLimit
    else if IS_REPT hdr then
      -- This is a run of repeated bytes
      let count0 := DECODE_REPT hdr
      -- Check for overrun
      let count := if count0 > destRemaining then destRemaining else count0
      if count ≠ 0 ∧ srcRemaining ≠ 0 then
        -- Check if the decoded bytes lie within the specified window
        if destPos + count > destStartByte ∧ destPos < destStartByte + destLimit then
          let offset := if destPos ≥ destStartByte then 0 else destStartByte - destPos
          let copyCount0 := count - offset
          let copyCount := if copyCount0 > destRemaining then destRemaining else copyCount0
          let r := unpackWindowLoop fuel (rest.drop 1) (srcRemaining - 1)
              (destRemaining - copyCount) ((destPos + count) % 65536) destStartByte destLimit
          (List.replicate copyCount (rest.headD 0) ++ r.1, r.2)
        else
          unpackWindowLoop fuel (rest.drop 1) (srcRemaining - 1)
            destRemaining ((destPos + count) % 65536) destStartByte destLimit
      else
        unpackWindowLoop fuel rest srcRemaining destRemaining destPos destStartByte destLimit
    else
      unpackWindowLoop fuel rest srcRemaining destRemaining destPos destStartByte destLimit

/-- `unpackbits_window` (`packbits.c` lines 255-347).  Returns the C return
value together with the bytes written. -/
def unpackbits_window (src : List Nat) (srcCount destStartByte destLimit : Nat) : Nat × List Nat :=
  let srcLimit := 0xffff
  let sr0 := if srcCount = 0 then srcLimit else srcCount
  let r := unpackWindowLoop sr0 src sr0 destLimit 0 destStartByte destLimit
  (destLimit - r.2, r.1)

/-- The logical decompressed stream of a packed source: the decode with no
destination limit (`packbits.c` lines 186-229 with the clamping never
engaged). -/
def fullDecode : List Nat → List Nat
  | [] => []
  | hdr :: rest =>
    if IS_DIFF hdr then
      rest.take (DECODE_DIFF hdr) ++ fullDecode (rest.drop (DECODE_DIFF hdr))
    else if IS_REPT hdr then
      if rest = [] then []
      else List.replicate (DECODE_REPT hdr) (rest.headD 0) ++ fullDecode (rest.drop 1)
    else fullDecode rest
termination_by l => l.length
decreasing_by all_goals (simp; try omega)

/-- A well-formed packed stream: a concatenation of complete chunks, every
header an actual byte value. -/
def validStream : List Nat → Bool
  | [] => true
  | hdr :: rest =>
    if IS_DIFF hdr then
      decide (DECODE_DIFF hdr ≤ rest.length) && validStream (rest.drop (DECODE_DIFF hdr))
    else if IS_REPT hdr then
      decide (hdr < 256) && decide (rest ≠ []) && validStream (rest.drop 1)
    else validStream rest
termination_by l => l.length
decreasing_by all_goals (simp; try omega)

example : packbits [0xAA, 0xAA, 0xAA, 0xAA, 0x01, 0x02, 0xAA, 0xAA, 0xAA, 0xAA, 0xAA] 12 =
    some [0xFD, 0xAA, 0x01, 0x01, 0x02, 0xFC, 0xAA] := by decide

example : unpackbits [0xFD, 0xAA, 0x01, 0x01, 0x02, 0xFC, 0xAA] 7 11 =
    (11, [0xAA, 0xAA, 0xAA, 0xAA, 0x01, 0x02, 0xAA, 0xAA, 0xAA, 0xAA, 0xAA]) := by decide

example : unpackbits_window [4, 1, 2, 3, 4, 5, 1, 6, 7] 9 5 2 = (1, [7]) := by decide

example : unpackbits [4, 1, 2, 3, 4, 5, 1, 6, 7] 9 100 = (7, [1, 2, 3, 4, 5, 6, 7]) := by decide

/-- Every successful `packLoop` run respects the destination limit: the
check before each flush guarantees `destCount + bytes written ≤ destLimit`. -/
theorem packLoop_fits : ∀ (rest : List Nat) (inRun : Bool) (pending : List Nat)
    (runStart lastByte destCount destLimit : Nat) (out : List Nat),
    packLoop rest inRun pending runStart lastByte destCount destLimit = some out →
    destCount + out.length ≤ destLimit := by
  intro rest
  induction rest with
  | nil =>
    intro inRun pending runStart lastByte destCount destLimit out h
    simp only [packLoop] at h
    split_ifs at h <;>
      first
      | exact Option.noConfusion h
      | (obtain rfl := Option.some.inj h
         simp only [List.length_cons, List.length_nil] at *
         omega)
  | cons currByte rest ih =>
    intro inRun pending runStart lastByte destCount destLimit out h
    simp only [packLoop, MAX_DIFF, MAX_REPT, MIN_REPT] at h
    split_ifs at h <;>
      first
      | exact Option.noConfusion h
      | (rw [Option.map_eq_some'] at h
         obtain ⟨o, ho, rfl⟩ := h
         have := ih _ _ _ _ _ _ _ ho
         simp only [List.length_cons, List.length_append, List.length_take,
           List.length_drop, List.length_nil] at *
         omega)
      | (have hx := ih _ _ _ _ _ _ _ h; omega)

/-- With less than 2 bytes of remaining destination capacity, `packLoop`
always fails: every flush needs at least a header byte plus one payload
byte, and the pending region is never empty. -/
theorem packLoop_none_of_full : ∀ (rest : List Nat) (inRun : Bool) (pending : List Nat)
    (runStart lastByte destCount destLimit : Nat),
    1 ≤ pending.length → destLimit < destCount + 2 →
    packLoop rest inRun pending runStart lastByte destCount destLimit = none := by
  intro rest
  induction rest with
  | nil =>
    intro inRun pending runStart lastByte destCount destLimit hp hd
    simp only [packLoop]
    split_ifs <;> first | rfl | omega
  | cons currByte rest ih =>
    intro inRun pending runStart lastByte destCount destLimit hp hd
    simp only [packLoop, MAX_DIFF, MAX_REPT, MIN_REPT]
    split_ifs <;>
      first
      | rfl
      | omega
      | (apply ih _ _ _ _ _ _ (by simp) hd)

/-- C5: the encoder fails closed on destination overflow.  Whenever
`packbits` succeeds the bytes written fit in `destLimit` (each flush is
guarded by a capacity check), and on overflow it returns the failure
sentinel `none` (the C `return 0`), never a partial success; in particular
any non-empty source with a capacity-0 destination fails. -/
theorem packbits_fails_closed :
    (∀ (src : List Nat) (destLimit : Nat) (out : List Nat),
        packbits src destLimit = some out → out.length ≤ destLimit) ∧
      ∀ src : List Nat, src ≠ [] → packbits src 0 = none := by
  constructor
  · intro src destLimit out h
    match src with
    | [] =>
      simp only [packbits, Option.some.injEq] at h
      simp [← h]
    | b :: rest =>
      have := packLoop_fits rest false [b] 0 b 0 destLimit out h
      omega
  · intro src hne
    match src with
    | [] => exact absurd rfl hne
    | b :: rest =>
      exact packLoop_none_of_full rest false [b] 0 b 0 0 (by simp) (by omega)

theorem packbits_fails_closed_witness :
    packbits [1] 0 = none ∧ packbits [7, 7, 7] 2 = some [0xFE, 7] :=
  ⟨packbits_fails_closed.2 [1] (by decide), by decide⟩

/-- With no source bytes left in the buffer, the decode loop stops and
changes nothing. -/
theorem unpackLoop_nil (fuel sr dr : Nat) : unpackLoop fuel [] sr dr = ([], sr, dr) := by
  cases fuel <;> cases sr <;> rfl

/-- `packbits` on an empty source writes zero bytes and returns 0 (a
success, not a failure), for every destination capacity; and `unpackbits`
on an empty source with `srcCount = 0` and `destLimit = 0` — the one case
of the sentinel mode in which the C stops (`destRemaining = 0`) without
reading past the empty buffer — writes zero bytes and returns 0.  For
`destLimit > 0` the sentinel mode reads `*srcPtr` past the empty source
buffer, which is undefined behaviour and is not asserted here. -/
theorem packbits_unpackbits_empty (destLimit : Nat) :
    packbits [] destLimit = some [] ∧ packbitsRet [] destLimit = 0 ∧
      unpackbits [] 0 0 = (0, []) :=
  ⟨rfl, rfl, by simp [unpackbits, unpackLoop_nil]⟩

/-- C7: a header byte equal to 128 is a decoder no-op: the loop of
`unpackbits` consumes the header and no payload byte, writes no output
byte, and continues with the next chunk. -/
theorem unpackbits_hdr128_noop (fuel sr destRemaining : Nat) (rest : List Nat)
    (h : 0 < destRemaining) :
    unpackLoop (fuel + 1) (128 :: rest) (sr + 1) destRemaining =
      unpackLoop fuel rest sr destRemaining := by
  have h0 : ¬destRemaining = 0 := by omega
  simp [unpackLoop, IS_DIFF, IS_REPT, h0]

theorem unpackbits_hdr128_noop_witness :
    0 < 5 ∧ unpackLoop 3 [128, 129, 7] 3 5 = unpackLoop 2 [129, 7] 2 5 :=
  ⟨by decide, unpackbits_hdr128_noop 2 2 5 [129, 7] (by decide)⟩

/-- C9 (counterexample): on the 11-byte example source the encoder produces
exactly the claimed stream `FD AA 01 01 02 FC AA`, but that stream totals
7 bytes, not 8. -/
theorem packbits_example_not_eight_bytes :
    packbits [0xAA, 0xAA, 0xAA, 0xAA, 0x01, 0x02, 0xAA, 0xAA, 0xAA, 0xAA, 0xAA] 12 =
        some [0xFD, 0xAA, 0x01, 0x01, 0x02, 0xFC, 0xAA] ∧
      packbitsRet [0xAA, 0xAA, 0xAA, 0xAA, 0x01, 0x02, 0xAA, 0xAA, 0xAA, 0xAA, 0xAA] 12 ≠ 8 := by
  decide

/-- C9 (amended): the 11-byte example source encodes to the stream
`FD AA 01 01 02 FC AA`, totalling 7 bytes, and `unpackbits` on that stream
reproduces the original 11 bytes. -/
theorem packbits_concrete_example :
    packbits [0xAA, 0xAA, 0xAA, 0xAA, 0x01, 0x02, 0xAA, 0xAA, 0xAA, 0xAA, 0xAA] 12 =
        some [0xFD, 0xAA, 0x01, 0x01, 0x02, 0xFC, 0xAA] ∧
      packbitsRet [0xAA, 0xAA, 0xAA, 0xAA, 0x01, 0x02, 0xAA, 0xAA, 0xAA, 0xAA, 0xAA] 12 = 7 ∧
      unpackbits [0xFD, 0xAA, 0x01, 0x01, 0x02, 0xFC, 0xAA] 7 11 =
        (11, [0xAA, 0xAA, 0xAA, 0xAA, 0x01, 0x02, 0xAA, 0xAA, 0xAA, 0xAA, 0xAA]) := by
  decide

/-- C10: the failure sentinel of `packbits` is the same return value 0 that
empty-source success produces: encoding `[]` succeeds returning 0, and
encoding a non-empty source into capacity 0 fails returning 0, so the
return value alone cannot distinguish the two. -/
theorem packbits_return_zero_ambiguous :
    packbitsRet [] 0 = 0 ∧ packbitsRet [0x41] 0 = 0 ∧
      packbits [] 0 = some [] ∧ packbits [0x41] 0 = none := by
  decide

/-- C2 (evaluation at the failing input): `[4, 1, 2, 3, 4, 5, 1, 6, 7]` is a
valid stream decoding to `[1, 2, 3, 4, 5, 6, 7]`, whose window at
`start = 5`, `len = 2` is `[6, 7]`; but `unpackbits_window` clamps the first
chunk's count to the 2-byte destination before skipping the chunk, loses
stream synchronisation, and writes `[7]`, returning 1 instead of 2. -/
theorem unpackbits_window_desync :
    validStream [4, 1, 2, 3, 4, 5, 1, 6, 7] = true ∧
      fullDecode [4, 1, 2, 3, 4, 5, 1, 6, 7] = [1, 2, 3, 4, 5, 6, 7] ∧
      ((fullDecode [4, 1, 2, 3, 4, 5, 1, 6, 7]).drop 5).take 2 = [6, 7] ∧
      unpackbits_window [4, 1, 2, 3, 4, 5, 1, 6, 7] 9 5 2 = (1, [7]) := by
  refine ⟨?_, ?_, ?_, by decide⟩ <;>
    simp [validStream, fullDecode, IS_DIFF, IS_REPT, DECODE_DIFF]

/-- The worst-case packed size of `m` source bytes:
`m + ceil(m/128)` (`packbits.c` lines 54-55). -/
def packBound (m : Nat) : Nat := m + (m + 127) / 128

/-- Output-size bound for `packLoop`, by cases on `inRun`: starting from a
pending region of 1 to 128 bytes, the remaining output is at most
`packBound` of the bytes still to be accounted for (pending plus unread),
and at most `2 + packBound rest.length` while inside a run. -/
theorem packLoop_length_le (rest : List Nat) :
    (∀ (pending : List Nat) (runStart lastByte destCount destLimit : Nat) (out : List Nat),
        1 ≤ pending.length → pending.length ≤ 128 →
        packLoop rest false pending runStart lastByte destCount destLimit = some out →
        out.length ≤ packBound (pending.length + rest.length)) ∧
      (∀ (pending : List Nat) (runStart lastByte destCount destLimit : Nat) (out : List Nat),
        1 ≤ pending.length → pending.length ≤ 128 →
        packLoop rest true pending runStart lastByte destCount destLimit = some out →
        out.length ≤ 2 + packBound rest.length) := by
  induction rest with
  | nil =>
    constructor <;>
    · intro pending runStart lastByte destCount destLimit out h1 h128 h
      simp only [packLoop, Bool.false_eq_true, if_false, if_true] at h
      split_ifs at h <;>
        first
        | exact Option.noConfusion h
        | (obtain rfl := Option.some.inj h
           simp only [packBound, List.length_cons, List.length_nil]
           omega)
  | cons currByte rest ih =>
    constructor <;>
    · intro pending runStart lastByte destCount destLimit out h1 h128 h
      simp only [packLoop, Bool.false_eq_true, if_false, if_true, MAX_DIFF, MAX_REPT,
        MIN_REPT, List.length_append, List.length_cons, List.length_nil] at h
      split_ifs at h <;>
        first
        | exact Option.noConfusion h
        | (rw [Option.map_eq_some'] at h
           obtain ⟨o, ho, rfl⟩ := h
           first
           | (have hlen := (fun ha hb => (ih).1 _ _ _ _ _ _ ha hb ho)
                (by simp only [List.length_drop, List.length_append, List.length_cons,
                  List.length_nil]; omega)
                (by simp only [List.length_drop, List.length_append, List.length_cons,
                  List.length_nil]; omega)
              simp only [packBound, List.length_cons, List.length_append, List.length_take,
                List.length_drop, List.length_nil] at *
              omega)
           | (have hlen := (fun ha hb => (ih).2 _ _ _ _ _ _ ha hb ho)
                (by simp only [List.length_drop, List.length_append, List.length_cons,
                  List.length_nil]; omega)
                (by simp only [List.length_drop, List.length_append, List.length_cons,
                  List.length_nil]; omega)
              simp only [packBound, List.length_cons, List.length_append, List.length_take,
                List.length_drop, List.length_nil] at *
              omega))
        | (first
           | (have hlen := (fun ha hb => (ih).1 _ _ _ _ _ _ ha hb h)
                (by simp only [List.length_drop, List.length_append, List.length_cons,
                  List.length_nil]; omega)
                (by simp only [List.length_drop, List.length_append, List.length_cons,
                  List.length_nil]; omega)
              simp only [packBound, List.length_cons, List.length_append, List.length_take,
                List.length_drop, List.length_nil] at *
              omega)
           | (have hlen := (fun ha hb => (ih).2 _ _ _ _ _ _ ha hb h)
                (by simp only [List.length_drop, List.length_append, List.length_cons,
                  List.length_nil]; omega)
                (by simp only [List.length_drop, List.length_append, List.length_cons,
                  List.length_nil]; omega)
              simp only [packBound, List.length_cons, List.length_append, List.length_take,
                List.length_drop, List.length_nil] at *
              omega))

/-- With `destLimit` at least `destCount` plus the worst-case bound for the
remaining input, every capacity check in `packLoop` passes and the encoder
succeeds. -/
theorem packLoop_isSome (rest : List Nat) :
    (∀ (pending : List Nat) (runStart lastByte destCount destLimit : Nat),
        1 ≤ pending.length → pending.length ≤ 128 →
        destCount + packBound (pending.length + rest.length) ≤ destLimit →
        (packLoop rest false pending runStart lastByte destCount destLimit).isSome = true) ∧
      (∀ (pending : List Nat) (runStart lastByte destCount destLimit : Nat),
        1 ≤ pending.length → pending.length ≤ 128 →
        destCount + 2 + packBound rest.length ≤ destLimit →
        (packLoop rest true pending runStart lastByte destCount destLimit).isSome = true) := by
  induction rest with
  | nil =>
    constructor <;>
    · intro pending runStart lastByte destCount destLimit h1 h128 hdl
      simp only [packLoop, Bool.false_eq_true, if_false, if_true]
      split_ifs <;>
        first
        | rfl
        | (exfalso
           simp only [packBound, List.length_nil] at *
           omega)
  | cons currByte rest ih =>
    constructor <;>
    · intro pending runStart lastByte destCount destLimit h1 h128 hdl
      simp only [packLoop, Bool.false_eq_true, if_false, if_true, MAX_DIFF, MAX_REPT,
        MIN_REPT, List.length_append, List.length_cons, List.length_nil]
      split_ifs <;>
        first
        | (exfalso
           simp only [packBound, List.length_cons, List.length_nil] at *
           omega)
        | (rw [Option.isSome_map']
           (first | apply (ih).1 | apply (ih).2) <;>
             (simp only [packBound, List.length_drop, List.length_append, List.length_cons,
               List.length_nil] at *; omega))
        | ((first | apply (ih).1 | apply (ih).2) <;>
             (simp only [packBound, List.length_drop, List.length_append, List.length_cons,
               List.length_nil] at *; omega))

/-- C3: bounded overhead.  Whenever `packbits` succeeds, the number of
bytes it wrote is at most `len(S) + ceil(len(S)/128)`. -/
theorem packbits_bounded_overhead (src : List Nat) (destLimit : Nat) (out : List Nat)
    (h : packbits src destLimit = some out) :
    out.length ≤ src.length + (src.length + 127) / 128 := by
  match src with
  | [] =>
    simp only [packbits, Option.some.injEq] at h
    simp [← h]
  | b :: rest =>
    have hlen := (packLoop_length_le rest).1 [b] 0 b 0 destLimit out (by simp) (by simp) h
    simp only [packBound, List.length_cons, List.length_nil] at *
    omega

theorem packbits_bounded_overhead_witness :
    ([0xFF, 5, 0, 1] : List Nat).length ≤
      [5, 5, 1].length + ([5, 5, 1].length + 127) / 128 :=
  packbits_bounded_overhead [5, 5, 1] 4 [0xFF, 5, 0, 1] (by decide)

theorem ENCODE_DIFF_eq (n : Nat) (h1 : 1 ≤ n) (h2 : n ≤ 128) : ENCODE_DIFF n = n - 1 := by
  simp only [ENCODE_DIFF]; omega

theorem ENCODE_REPT_eq (n : Nat) (h1 : 2 ≤ n) (h2 : n ≤ 128) : ENCODE_REPT n = 257 - n := by
  simp only [ENCODE_REPT]; omega

theorem DECODE_DIFF_eq (h : Nat) (hh : h < 128) : DECODE_DIFF h = h + 1 := by
  simp only [DECODE_DIFF]; omega

theorem DECODE_REPT_eq (h : Nat) (h1 : 128 < h) (h2 : h < 256) : DECODE_REPT h = 257 - h := by
  simp only [DECODE_REPT]; omega

/-- With no destination space left, the decode loop stops and changes
nothing. -/
theorem unpackLoop_dest_zero (fuel : Nat) (src : List Nat) (sr : Nat) :
    unpackLoop fuel src sr 0 = ([], sr, 0) := by
  cases fuel <;> cases src <;> cases sr <;> rfl

/-- `out` is a chunk stream that the `unpackbits` loop decodes exactly to
`res`: for any sufficient fuel and any destination of at least
`res.length` bytes, the loop consumes all of `out` and writes `res`. -/
def DecodesTo (out res : List Nat) : Prop :=
  ∀ (fuel d : Nat), out.length ≤ fuel → res.length ≤ d →
    unpackLoop fuel out out.length d = (res, 0, d - res.length)

theorem decodesTo_nil : DecodesTo [] [] := by
  intro fuel d _ _
  simp [unpackLoop_nil]

/-- Prepending a literal chunk (header `ENCODE_DIFF n` plus `n` payload
bytes) to a decodable stream. -/
theorem decodesTo_diff (n : Nat) (payload out res : List Nat)
    (h1 : 1 ≤ n) (h2 : n ≤ 128) (hp : payload.length = n)
    (hrec : DecodesTo out res) :
    DecodesTo (ENCODE_DIFF n :: (payload ++ out)) (payload ++ res) := by
  intro fuel d hf hd
  simp only [List.length_cons, List.length_append, hp] at hf hd ⊢
  obtain ⟨f, rfl⟩ : ∃ f, fuel = f + 1 := ⟨fuel - 1, by omega⟩
  have hE : ENCODE_DIFF n = n - 1 := by simp only [ENCODE_DIFF]; omega
  have hD : DECODE_DIFF (n - 1) = n := by simp only [DECODE_DIFF]; omega
  have hd0 : ¬d = 0 := by omega
  have hIS : IS_DIFF (n - 1) = true := by
    simp only [IS_DIFF, decide_eq_true_eq]; omega
  have hTM : takeMem (payload ++ out) n = payload := by
    simp only [takeMem, List.take_left' hp, List.length_append, hp]
    rw [show n - (n + out.length) = 0 from by omega]
    simp
  rw [hE]
  simp only [unpackLoop, hd0, if_false, hIS, if_true, hD]
  rw [if_neg (by omega : ¬n > d), if_neg (by omega : ¬n > n + out.length),
    if_pos (by omega : ¬n = 0), hTM, List.drop_left' hp,
    show n + out.length - n = out.length from by omega,
    hrec f (d - n) (by omega) (by omega),
    show d - n - res.length = d - (n + res.length) from by omega]

/-- Prepending a repeat chunk (header `ENCODE_REPT n` plus the byte to
replicate) to a decodable stream. -/
theorem decodesTo_rept (n b : Nat) (out res : List Nat)
    (h1 : 2 ≤ n) (h2 : n ≤ 128)
    (hrec : DecodesTo out res) :
    DecodesTo (ENCODE_REPT n :: b :: out) (List.replicate n b ++ res) := by
  intro fuel d hf hd
  simp only [List.length_cons, List.length_append, List.length_replicate] at hf hd ⊢
  obtain ⟨f, rfl⟩ : ∃ f, fuel = f + 1 := ⟨fuel - 1, by omega⟩
  have hE : ENCODE_REPT n = 257 - n := by simp only [ENCODE_REPT]; omega
  have hD : DECODE_REPT (257 - n) = n := by simp only [DECODE_REPT]; omega
  have hd0 : ¬d = 0 := by omega
  have hISd : IS_DIFF (257 - n) = false := by
    simp only [IS_DIFF, decide_eq_false_iff_not]; omega
  have hISr : IS_REPT (257 - n) = true := by
    simp only [IS_REPT, decide_eq_true_eq]; omega
  rw [hE]
  simp only [unpackLoop, hd0, if_false, hISd, hISr, Bool.false_eq_true, if_true, hD]
  rw [if_neg (by omega : ¬n > d),
    if_pos (⟨by omega, by omega⟩ : ¬n = 0 ∧ ¬out.length + 1 = 0)]
  simp only [List.drop_succ_cons, List.drop_zero, List.headD_cons,
    Nat.add_sub_cancel]
  rw [hrec f (d - n) (by omega) (by omega),
    show d - n - res.length = d - (n + res.length) from by omega]

/-- Decode correctness of the encoder loop: under the loop invariants
(non-empty pending region of at most 128 bytes; all pending bytes from
`runStart` on equal to `lastByte`; while in a run, all pending bytes equal
to `lastByte`), a successful `packLoop` emits a chunk stream that decodes
exactly to the pending region followed by the unread input. -/
theorem packLoop_decodes (rest : List Nat) :
    (∀ (pending : List Nat) (runStart lastByte destCount destLimit : Nat) (out : List Nat),
        1 ≤ pending.length → pending.length ≤ 128 →
        runStart < pending.length →
        (∀ x ∈ pending.drop runStart, x = lastByte) →
        packLoop rest false pending runStart lastByte destCount destLimit = some out →
        DecodesTo out (pending ++ rest)) ∧
      (∀ (pending : List Nat) (runStart lastByte destCount destLimit : Nat) (out : List Nat),
        2 ≤ pending.length → pending.length ≤ 128 →
        (∀ x ∈ pending, x = lastByte) →
        packLoop rest true pending runStart lastByte destCount destLimit = some out →
        DecodesTo out (pending ++ rest)) := by
  induction rest with
  | nil =>
    constructor
    · intro pending runStart lastByte destCount destLimit out h1 h128 hrs hsuf h
      simp only [packLoop, Bool.false_eq_true, if_false] at h
      split_ifs at h
      obtain rfl := Option.some.inj h
      have hd := decodesTo_diff pending.length pending [] [] h1 h128 rfl decodesTo_nil
      simpa using hd
    · intro pending runStart lastByte destCount destLimit out h2 h128 hall h
      simp only [packLoop, if_true] at h
      split_ifs at h
      obtain rfl := Option.some.inj h
      have hrep := List.eq_replicate_of_mem hall
      have hd := decodesTo_rept pending.length lastByte [] [] h2 h128 decodesTo_nil
      rw [← hrep] at hd
      simpa using hd
  | cons currByte rest ih =>
    constructor
    · intro pending runStart lastByte destCount destLimit out h1 h128 hrs hsuf h
      simp only [packLoop, Bool.false_eq_true, if_false, if_true, MAX_DIFF, MAX_REPT,
        MIN_REPT, List.length_append, List.length_cons, List.length_nil, Nat.zero_add] at h
      split_ifs at h with hb1 hb2 hb3 hb4 hb5 hb6
      -- a full 128-byte literal chunk is flushed
      · have hp128 : pending.length = 128 := by omega
        rw [Option.map_eq_some'] at h
        obtain ⟨o, ho, rfl⟩ := h
        rw [List.drop_left' hp128,
          show pending.length + 1 - 128 - 1 = 0 from by omega] at ho
        have hdo := ih.1 [currByte] 0 currByte (destCount + 1 + 128) destLimit o
          (by simp) (by simp) (by simp) (by simp) ho
        have hd := decodesTo_diff 128 pending o ([currByte] ++ rest)
          (by omega) (by omega) hp128 hdo
        rw [List.take_left' hp128]
        simpa using hd
      -- the pending literals are flushed and a run starts
      · subst hb3
        have hw3 : 3 ≤ pending.length + 1 - runStart := hb4.resolve_right hb5
        rw [Option.map_eq_some'] at h
        obtain ⟨o, ho, rfl⟩ := h
        have hdo := ih.2 (List.drop runStart (pending ++ [currByte])) runStart currByte
          (destCount + 1 + runStart) destLimit o
          (by simp only [List.length_drop, List.length_append, List.length_cons,
            List.length_nil]; omega)
          (by simp only [List.length_drop, List.length_append, List.length_cons,
            List.length_nil]; omega)
          (by
            intro x hx
            rw [List.drop_append_of_le_length (by omega)] at hx
            rcases List.mem_append.mp hx with hx' | hx'
            · exact hsuf x hx'
            · simpa using hx')
          ho
        have hd := decodesTo_diff runStart (List.take runStart (pending ++ [currByte])) o
          (List.drop runStart (pending ++ [currByte]) ++ rest)
          (by omega) (by omega)
          (by simp only [List.length_take, List.length_append, List.length_cons,
            List.length_nil]; omega)
          hdo
        rw [← List.append_assoc, List.take_append_drop, List.append_assoc,
          List.singleton_append] at hd
        exact hd
      -- a run starts at the beginning of the pending region
      · subst hb3
        have hrs0 : runStart = 0 := by omega
        subst hrs0
        have hdo := ih.2 (pending ++ [currByte]) 0 currByte destCount destLimit out
          (by simp only [List.length_append, List.length_cons, List.length_nil]; omega)
          (by simp only [List.length_append, List.length_cons, List.length_nil]; omega)
          (by
            intro x hx
            rcases List.mem_append.mp hx with hx' | hx'
            · exact hsuf x (by simpa using hx')
            · simpa using hx')
          h
        rw [List.append_assoc, List.singleton_append] at hdo
        exact hdo
      -- the candidate run is not yet worthwhile
      · subst hb3
        have hdo := ih.1 (pending ++ [currByte]) runStart currByte destCount destLimit out
          (by simp only [List.length_append, List.length_cons, List.length_nil]; omega)
          (by simp only [List.length_append, List.length_cons, List.length_nil]; omega)
          (by simp only [List.length_append, List.length_cons, List.length_nil]; omega)
          (by
            intro x hx
            rw [List.drop_append_of_le_length (by omega)] at hx
            rcases List.mem_append.mp hx with hx' | hx'
            · exact hsuf x hx'
            · simpa using hx')
          h
        rw [List.append_assoc, List.singleton_append] at hdo
        exact hdo
      -- a differing byte moves the candidate run start
      · have hdo := ih.1 (pending ++ [currByte]) (pending.length + 1 - 1) currByte
          destCount destLimit out
          (by simp only [List.length_append, List.length_cons, List.length_nil]; omega)
          (by simp only [List.length_append, List.length_cons, List.length_nil]; omega)
          (by simp only [List.length_append, List.length_cons, List.length_nil]; omega)
          (by
            intro x hx
            rw [show pending.length + 1 - 1 = pending.length from by omega,
              List.drop_append_of_le_length (le_refl _),
              List.drop_of_length_le (le_refl _)] at hx
            simpa using hx)
          h
        rw [List.append_assoc, List.singleton_append] at hdo
        exact hdo
    · intro pending runStart lastByte destCount destLimit out h2 h128 hall h
      simp only [packLoop, if_true, MAX_REPT, List.length_append, List.length_cons,
        List.length_nil, Nat.zero_add] at h
      split_ifs at h with hb1 hb2
      -- the run ends and is flushed as a repeat chunk
      · rw [Option.map_eq_some'] at h
        obtain ⟨o, ho, rfl⟩ := h
        have hdo := ih.1 [currByte] 0 currByte (destCount + 2) destLimit o
          (by simp) (by simp) (by simp) (by simp) ho
        have hrep := List.eq_replicate_of_mem hall
        have hd := decodesTo_rept pending.length lastByte o ([currByte] ++ rest)
          h2 h128 hdo
        rw [← hrep] at hd
        rw [show pending.length + 1 - 1 = pending.length from by omega]
        simpa using hd
      -- the run continues
      · have hcur : currByte = lastByte := not_not.mp (not_or.mp hb1).1
        subst hcur
        have hdo := ih.2 (pending ++ [currByte]) runStart currByte destCount destLimit out
          (by simp only [List.length_append, List.length_cons, List.length_nil]; omega)
          (by
            rcases not_or.mp hb1 with ⟨_, hlen⟩
            simp only [List.length_append, List.length_cons, List.length_nil]
            omega)
          (by
            intro x hx
            rcases List.mem_append.mp hx with hx' | hx'
            · exact hall x hx'
            · simpa using hx')
          h
        rw [List.append_assoc, List.singleton_append] at hdo
        exact hdo

/-- With no two consecutive equal bytes ever compared (the `List.Chain`
hypothesis relates `lastByte` to the head of `rest` and each byte of
`rest` to the next), the encoder never enters a run, and a successful
`packLoop` emits exactly the worst-case `packBound` bytes: one header per
full 128-byte literal chunk plus one for the remainder. -/
theorem packLoop_norun_length : ∀ (rest : List Nat) (pending : List Nat)
    (runStart lastByte destCount destLimit : Nat) (out : List Nat),
    1 ≤ pending.length → pending.length ≤ 128 →
    List.Chain (· ≠ ·) lastByte rest →
    packLoop rest false pending runStart lastByte destCount destLimit = some out →
    out.length = packBound (pending.length + rest.length) := by
  intro rest
  induction rest with
  | nil =>
    intro pending runStart lastByte destCount destLimit out h1 h128 _hch h
    simp only [packLoop, Bool.false_eq_true, if_false] at h
    split_ifs at h
    obtain rfl := Option.some.inj h
    simp only [packBound, List.length_cons, List.length_nil]
    omega
  | cons currByte rest ih =>
    intro pending runStart lastByte destCount destLimit out h1 h128 hch h
    cases hch with
    | cons hne hch2 =>
      simp only [packLoop, Bool.false_eq_true, if_false, if_true, MAX_DIFF, MIN_REPT,
        List.length_append, List.length_cons, List.length_nil, Nat.zero_add] at h
      split_ifs at h with hb1 hb2 hb3 hb4 hb5 hb6
      · -- a full 128-byte literal chunk is flushed
        rw [Option.map_eq_some'] at h
        obtain ⟨o, ho, rfl⟩ := h
        have hlo := ih (List.drop 128 (pending ++ [currByte]))
          (pending.length + 1 - 128 - 1) currByte (destCount + 1 + 128) destLimit o
          (by simp only [List.length_drop, List.length_append, List.length_cons,
            List.length_nil]; omega)
          (by simp only [List.length_drop, List.length_append, List.length_cons,
            List.length_nil]; omega)
          hch2 ho
        simp only [packBound, List.length_cons, List.length_append, List.length_take,
          List.length_drop, List.length_nil] at *
        omega
      · exact absurd hb3 (Ne.symm hne)
      · exact absurd hb3 (Ne.symm hne)
      · exact absurd hb3 (Ne.symm hne)
      · -- a differing byte: the pending region grows
        have hlo := ih (pending ++ [currByte]) (pending.length + 1 - 1) currByte
          destCount destLimit out
          (by simp only [List.length_append, List.length_cons, List.length_nil]; omega)
          (by simp only [List.length_append, List.length_cons, List.length_nil]; omega)
          hch2 h
        simp only [packBound, List.length_append, List.length_cons, List.length_nil] at *
        omega

/-- An incompressible source: `n` bytes alternating between 0 and 1, so no
two consecutive bytes are equal. -/
def altList : Nat → List Nat
  | 0 => []
  | n + 1 => n % 2 :: altList n

theorem altList_succ (n : Nat) : altList (n + 1) = n % 2 :: altList n := by
  simp only [altList]

theorem altList_length (n : Nat) : (altList n).length = n := by
  induction n with
  | zero => rfl
  | succ n ih => simp [altList, ih]

theorem altList_chain (n : Nat) : List.Chain (· ≠ ·) (n % 2) (altList n) := by
  induction n with
  | zero => exact List.Chain.nil
  | succ n ih => exact List.Chain.cons (by omega) ih

/-- For every `destLimit` representable in the C's `uint16_t`, `packbits`
fails on the 65027-byte incompressible source: its packed size would be
`packBound 65027 = 65536`, which exceeds every representable limit. -/
theorem packbits_incompressible_fails (destLimit : Nat) (hdl : destLimit ≤ 0xffff) :
    packbits (altList 65027) destLimit = none := by
  cases h : packbits (altList 65027) destLimit with
  | none => rfl
  | some out =>
    exfalso
    rw [show (65027 : Nat) = 65026 + 1 from rfl, altList_succ] at h
    have h2 : packLoop (altList 65026) false [65026 % 2] 0 (65026 % 2) 0 destLimit =
        some out := h
    have hsz := packLoop_norun_length (altList 65026) [65026 % 2] 0 (65026 % 2) 0
      destLimit out (by simp) (by simp) (altList_chain 65026) h2
    have hfit := packLoop_fits (altList 65026) false [65026 % 2] 0 (65026 % 2) 0
      destLimit out h2
    rw [altList_length] at hsz
    simp only [packBound, List.length_cons, List.length_nil] at hsz
    omega

/-- C1 (counterexample): the 65027-byte incompressible source has length
within 0xFFFF, but the destination size the claim prescribes,
`len + ceil(len/128) = 65536`, exceeds 0xFFFF and so cannot be passed
through the C's `uint16_t destLimit`; at the largest representable limit,
0xFFFF, the encoder returns the failure sentinel (as it does at every
representable limit, by `packbits_incompressible_fails`). -/
theorem packbits_roundtrip_counterexample :
    (altList 65027).length ≤ 0xffff ∧
      0xffff < (altList 65027).length + ((altList 65027).length + 127) / 128 ∧
      packbits (altList 65027) 0xffff = none := by
  refine ⟨?_, ?_, packbits_incompressible_fails 0xffff (by decide)⟩
  · rw [altList_length]
    decide
  · rw [altList_length]
    decide

/-- C1 (amended): round-trip within the `uint16_t` interface ranges.  For
every non-empty byte sequence `S` whose worst-case packed size
`len(S) + ceil(len(S)/128)` is representable (`≤ 0xFFFF`, equivalently
`len(S) ≤ 65026`), `packbits` with that `destLimit` succeeds, the packed
size fits `uint16_t` (so it can be passed back as `srcCount`), and
`unpackbits` on the packed output — its exact length as `srcCount`, and
any representable `destLimit` of at least `len(S)` — reproduces `S`
exactly and returns `len(S)`.  Non-emptiness keeps the decoder out of the
`srcCount = 0` sentinel mode, which on an empty buffer would read out of
bounds. -/
theorem packbits_unpackbits_roundtrip (S : List Nat) (hne : S ≠ [])
    (hlen : S.length + (S.length + 127) / 128 ≤ 0xffff)
    (destRem : Nat) (hd : S.length ≤ destRem) (hd16 : destRem ≤ 0xffff) :
    ∃ out, packbits S (S.length + (S.length + 127) / 128) = some out ∧
      out.length ≤ 0xffff ∧
      unpackbits out out.length destRem = (S.length, S) := by
  match S with
  | [] => exact absurd rfl hne
  | b :: rest =>
    have hsome := (packLoop_isSome rest).1 [b] 0 b 0
      ((b :: rest).length + ((b :: rest).length + 127) / 128)
      (by simp) (by simp)
      (by simp only [packBound, List.length_cons, List.length_nil, Nat.zero_add]; omega)
    obtain ⟨out, hout⟩ := Option.isSome_iff_exists.mp hsome
    refine ⟨out, hout, ?_, ?_⟩
    · have hfit := packLoop_fits rest false [b] 0 b 0
        ((b :: rest).length + ((b :: rest).length + 127) / 128) out hout
      omega
    · have hdec := (packLoop_decodes rest).1 [b] 0 b 0 _ out
        (by simp) (by simp) (by simp) (by simp) hout
      have hres := hdec out.length destRem le_rfl (by simpa using hd)
      have hne0 : ¬out.length = 0 := by
        intro h0
        rw [List.length_eq_zero] at h0
        subst h0
        rw [unpackLoop_nil] at hres
        simp at hres
      simp only [unpackbits, if_neg hne0]
      rw [hres]
      simp only [List.singleton_append]
      rw [show destRem - (destRem - (b :: rest).length) = (b :: rest).length from by
        simp only [List.length_cons] at hd ⊢; omega]

theorem packbits_unpackbits_roundtrip_witness :
    ∃ out, packbits [9, 9, 9, 1] ([9, 9, 9, 1].length + ([9, 9, 9, 1].length + 127) / 128) =
        some out ∧ out.length ≤ 0xffff ∧
      unpackbits out out.length 4 = ([9, 9, 9, 1].length, [9, 9, 9, 1]) :=
  packbits_unpackbits_roundtrip [9, 9, 9, 1] (by decide) (by decide) 4 (by decide) (by decide)

/-- Exact output size of the encoder on a buffer of identical bytes: while
in a run of `k` pending identical bytes with `m` more identical bytes to
read, the remaining output is `2 * ceil((k+m)/128)` bytes; from the primed
initial state (one pending byte) it is `2 * ceil((1+m)/128)` bytes. -/
theorem packLoop_run_length (b destLimit : Nat) : ∀ (m : Nat),
    (∀ (k runStart destCount : Nat) (out : List Nat), 2 ≤ k → k ≤ 128 →
        packLoop (List.replicate m b) true (List.replicate k b) runStart b destCount
            destLimit = some out →
        out.length = 2 * ((k + m + 127) / 128)) ∧
      (∀ (destCount : Nat) (out : List Nat),
        packLoop (List.replicate m b) false [b] 0 b destCount destLimit = some out →
        out.length = 2 * ((1 + m + 127) / 128)) := by
  intro m
  induction m using Nat.strong_induction_on with
  | _ m ih =>
    match m with
    | 0 =>
      constructor
      · intro k runStart destCount out hk2 hk128 h
        simp only [List.replicate_zero, packLoop, if_true] at h
        split_ifs at h
        obtain rfl := Option.some.inj h
        simp only [List.length_cons, List.length_nil, List.length_replicate]
        omega
      · intro destCount out h
        simp only [List.replicate_zero, packLoop, Bool.false_eq_true, if_false] at h
        split_ifs at h
        obtain rfl := Option.some.inj h
        simp only [List.length_cons, List.length_nil]
        try omega
    | m + 1 =>
      constructor
      · intro k runStart destCount out hk2 hk128 h
        simp only [List.replicate_succ, packLoop, if_true, MAX_REPT, List.length_append,
          List.length_cons, List.length_nil, List.length_replicate, Nat.zero_add] at h
        split_ifs at h with hc1 hc2
        · -- the run reached the 128-byte cap and is flushed
          have hk : k = 128 := by
            rcases hc1 with hc | hc
            · exact absurd rfl hc
            · omega
          rw [Option.map_eq_some'] at h
          obtain ⟨o, ho, rfl⟩ := h
          have hlo := (ih m (by omega)).2 (destCount + 2) o ho
          simp only [List.length_cons]
          omega
        · -- the run continues
          rw [← List.replicate_succ'] at h
          have hlo := (ih m (by omega)).1 (k + 1) runStart destCount out (by omega)
            (by
              rcases not_or.mp hc1 with ⟨_, hlen⟩
              omega)
            h
          omega
      · intro destCount out h
        simp only [List.replicate_succ, packLoop, Bool.false_eq_true, if_false, if_true,
          MAX_DIFF, MIN_REPT, List.length_append, List.length_cons, List.length_nil,
          Nat.zero_add] at h
        split_ifs at h <;>
          first
          | omega
          | (rw [show ([b] ++ [b] : List Nat) = List.replicate 2 b from rfl] at h
             have hlo := (ih m (by omega)).1 2 0 destCount out (by omega) (by omega) h
             omega)
          | (exfalso; simp_all; done)

/-- C8: compression of runs.  For every `N ≥ 3` and byte `b`, encoding a
buffer of `N` copies of `b` with a sufficiently large destination succeeds
and produces exactly `ceil(N/128) * 2` output bytes. -/
theorem packbits_run_compression (N b : Nat) (h3 : 3 ≤ N) (destLimit : Nat)
    (hdl : N + (N + 127) / 128 ≤ destLimit) :
    ∃ out, packbits (List.replicate N b) destLimit = some out ∧
      out.length = ((N + 127) / 128) * 2 := by
  obtain ⟨n, rfl⟩ : ∃ n, N = n + 1 := ⟨N - 1, by omega⟩
  rw [List.replicate_succ]
  have hsome := (packLoop_isSome (List.replicate n b)).1 [b] 0 b 0 destLimit
    (by simp) (by simp)
    (by simp only [packBound, List.length_replicate, List.length_cons, List.length_nil,
      Nat.zero_add]; omega)
  obtain ⟨out, hout⟩ := Option.isSome_iff_exists.mp hsome
  refine ⟨out, hout, ?_⟩
  have hlo := (packLoop_run_length b destLimit n).2 0 out hout
  omega

theorem packbits_run_compression_witness :
    ∃ out, packbits (List.replicate 5 7) 6 = some out ∧
      out.length = ((5 + 127) / 128) * 2 :=
  packbits_run_compression 5 7 (by decide) 6 (by decide)

theorem fullDecode_nil : fullDecode [] = [] := by
  simp [fullDecode]

theorem fullDecode_diff (hdr : Nat) (rest : List Nat) (hh : hdr < 128) :
    fullDecode (hdr :: rest) =
      rest.take (DECODE_DIFF hdr) ++ fullDecode (rest.drop (DECODE_DIFF hdr)) := by
  simp [fullDecode, IS_DIFF, hh]

theorem fullDecode_rept (hdr b : Nat) (rest : List Nat) (h1 : 128 < hdr) :
    fullDecode (hdr :: b :: rest) = List.replicate (DECODE_REPT hdr) b ++ fullDecode rest := by
  have h2 : ¬hdr < 128 := by omega
  simp [fullDecode, IS_DIFF, IS_REPT, h1, h2]

theorem fullDecode_rept_nil (hdr : Nat) (h1 : 128 < hdr) :
    fullDecode [hdr] = [] := by
  have h2 : ¬hdr < 128 := by omega
  simp [fullDecode, IS_DIFF, IS_REPT, h1, h2]

theorem fullDecode_noop (rest : List Nat) : fullDecode (128 :: rest) = fullDecode rest := by
  simp [fullDecode, IS_DIFF, IS_REPT]

theorem validStream_diff (hdr : Nat) (rest : List Nat) (hh : hdr < 128) :
    validStream (hdr :: rest) =
      (decide (DECODE_DIFF hdr ≤ rest.length) && validStream (rest.drop (DECODE_DIFF hdr))) := by
  simp [validStream, IS_DIFF, hh]

theorem validStream_rept (hdr b : Nat) (rest : List Nat) (h1 : 128 < hdr) :
    validStream (hdr :: b :: rest) = (decide (hdr < 256) && validStream rest) := by
  have h2 : ¬hdr < 128 := by omega
  simp [validStream, IS_DIFF, IS_REPT, h1, h2]

theorem validStream_rept_nil (hdr : Nat) (h1 : 128 < hdr) :
    validStream [hdr] = false := by
  have h2 : ¬hdr < 128 := by omega
  simp [validStream, IS_DIFF, IS_REPT, h1, h2]

theorem validStream_noop (rest : List Nat) : validStream (128 :: rest) = validStream rest := by
  simp [validStream, IS_DIFF, IS_REPT]

/-- On a valid stream, the `unpackbits` loop (run with the true source
length) writes exactly the first `d` bytes of the logical decompressed
output, for any destination capacity `d`. -/
theorem unpackLoop_valid : ∀ (fuel : Nat) (s : List Nat) (d : Nat),
    s.length ≤ fuel → validStream s = true →
    ∃ srF, unpackLoop fuel s s.length d =
      ((fullDecode s).take d, srF, d - min d (fullDecode s).length) := by
  intro fuel
  induction fuel with
  | zero =>
    intro s d hf hv
    have hs : s = [] := List.length_eq_zero.mp (by omega)
    subst hs
    exact ⟨0, by simp [unpackLoop_nil, fullDecode_nil]⟩
  | succ f ihf =>
    intro s d hf hv
    match s with
    | [] => exact ⟨0, by simp [unpackLoop_nil, fullDecode_nil]⟩
    | hdr :: rest =>
      by_cases hd0 : d = 0
      · subst hd0
        refine ⟨(hdr :: rest).length, ?_⟩
        rw [unpackLoop_dest_zero]
        simp
      · rcases Nat.lt_trichotomy hdr 128 with hlt | heq | hgt
        · -- literal chunk
          rw [validStream_diff hdr rest hlt, Bool.and_eq_true, decide_eq_true_eq,
            DECODE_DIFF_eq hdr hlt] at hv
          obtain ⟨hlen, hvrest⟩ := hv
          have hisd : IS_DIFF hdr = true := by
            simp only [IS_DIFF, decide_eq_true_eq]; omega
          rw [fullDecode_diff hdr rest hlt, DECODE_DIFF_eq hdr hlt]
          simp only [List.length_cons, unpackLoop, hd0, if_false, hisd, if_true,
            DECODE_DIFF_eq hdr hlt]
          by_cases hcd : hdr + 1 ≤ d
          · rw [List.take_append_eq_append_take,
              List.take_of_length_le (by simp only [List.length_take]; omega),
              show d - (rest.take (hdr + 1)).length = d - (hdr + 1) from by
                simp only [List.length_take]; omega,
              if_neg (by omega : ¬hdr + 1 > d), if_neg (by omega : ¬hdr + 1 > rest.length),
              if_pos (by omega : ¬hdr + 1 = 0),
              show takeMem rest (hdr + 1) = rest.take (hdr + 1) from by
                simp [takeMem, show hdr + 1 - rest.length = 0 from by omega],
              show rest.length - (hdr + 1) = (rest.drop (hdr + 1)).length from by
                simp [List.length_drop]]
            obtain ⟨srF, hr⟩ := ihf (rest.drop (hdr + 1)) (d - (hdr + 1))
              (by simp only [List.length_drop]; simp only [List.length_cons] at hf; omega)
              hvrest
            rw [hr]
            refine ⟨srF, ?_⟩
            simp only [Prod.mk.injEq, List.length_append, List.length_take,
              List.length_drop, true_and, and_true]
            try omega
          · rw [List.take_append_eq_append_take, List.take_take,
              show min d (hdr + 1) = d from by omega,
              show d - (rest.take (hdr + 1)).length = 0 from by
                simp only [List.length_take]; omega,
              List.take_zero, List.append_nil,
              if_pos (by omega : hdr + 1 > d), if_neg (by omega : ¬d > rest.length),
              if_pos hd0,
              show takeMem rest d = rest.take d from by
                simp [takeMem, show d - rest.length = 0 from by omega],
              Nat.sub_self, unpackLoop_dest_zero]
            refine ⟨rest.length - d, ?_⟩
            simp only [Prod.mk.injEq, List.length_append, List.length_take,
              List.length_drop, List.append_nil, true_and, and_true]
            try omega
        · -- header 128: no-op chunk
          subst heq
          rw [validStream_noop] at hv
          rw [fullDecode_noop]
          have hisd : IS_DIFF 128 = false := by simp [IS_DIFF]
          have hisr : IS_REPT 128 = false := by simp [IS_REPT]
          simp only [List.length_cons, unpackLoop, hd0, if_false, hisd, hisr,
            Bool.false_eq_true]
          exact ihf rest d (by simp only [List.length_cons] at hf; omega) hv
        · -- repeat chunk
          match rest with
          | [] =>
            exfalso
            rw [validStream_rept_nil hdr hgt] at hv
            exact Bool.noConfusion hv
          | b :: rest' =>
            rw [validStream_rept hdr b rest' hgt, Bool.and_eq_true,
              decide_eq_true_eq] at hv
            obtain ⟨h256, hvrest⟩ := hv
            have hisd : IS_DIFF hdr = false := by
              simp only [IS_DIFF, decide_eq_false_iff_not]; omega
            have hisr : IS_REPT hdr = true := by
              simp only [IS_REPT, decide_eq_true_eq]; omega
            rw [fullDecode_rept hdr b rest' hgt, DECODE_REPT_eq hdr hgt h256]
            simp only [List.length_cons, unpackLoop, hd0, if_false, hisd, hisr,
              Bool.false_eq_true, if_true, DECODE_REPT_eq hdr hgt h256,
              List.headD_cons, List.drop_one, List.tail_cons, Nat.add_sub_cancel]
            by_cases hcd : 257 - hdr ≤ d
            · rw [List.take_append_eq_append_take,
                List.take_of_length_le (by simp only [List.length_replicate]; omega),
                show d - (List.replicate (257 - hdr) b).length = d - (257 - hdr) from by
                  simp only [List.length_replicate],
                if_neg (by omega : ¬257 - hdr > d),
                if_pos (⟨by omega, by omega⟩ : ¬257 - hdr = 0 ∧ ¬rest'.length + 1 = 0)]
              obtain ⟨srF, hr⟩ := ihf rest' (d - (257 - hdr))
                (by simp only [List.length_cons] at hf; omega) hvrest
              rw [hr]
              refine ⟨srF, ?_⟩
              simp only [Prod.mk.injEq, List.length_append, List.length_replicate,
                List.append_nil, true_and, and_true]
              try omega
            · rw [List.take_append_eq_append_take, List.take_replicate,
                show min d (257 - hdr) = d from by omega,
                show d - (List.replicate (257 - hdr) b).length = 0 from by
                  simp only [List.length_replicate]; omega,
                List.take_zero, List.append_nil,
                if_pos (by omega : 257 - hdr > d),
                if_pos (⟨hd0, by omega⟩ : ¬d = 0 ∧ ¬rest'.length + 1 = 0),
                Nat.sub_self, unpackLoop_dest_zero]
              refine ⟨rest'.length, ?_⟩
              simp only [Prod.mk.injEq, List.length_append, List.length_replicate,
                List.append_nil, true_and, and_true]
              try omega

/-- C4: decode truncation is graceful.  For every valid packed stream whose
logical decompressed length exceeds `destLimit`, `unpackbits` (with the
true source length as `srcCount`) writes exactly the first `destLimit`
bytes of the logical output and returns `destLimit`; a run that would
overrun the destination is truncated to fit rather than rejected. -/
theorem unpackbits_graceful_truncation (s : List Nat) (hv : validStream s = true)
    (destLimit : Nat) (hlt : destLimit < (fullDecode s).length) :
    unpackbits s s.length destLimit = (destLimit, (fullDecode s).take destLimit) ∧
      ((fullDecode s).take destLimit).length = destLimit := by
  have hs : s.length ≠ 0 := by
    intro h0
    rw [List.length_eq_zero] at h0
    subst h0
    rw [fullDecode_nil] at hlt
    simp at hlt
  obtain ⟨srF, heq⟩ := unpackLoop_valid s.length s destLimit le_rfl hv
  constructor
  · simp only [unpackbits, hs, if_false]
    rw [heq,
      show destLimit - (destLimit - min destLimit (fullDecode s).length) = destLimit from by
        omega]
  · rw [List.length_take]
    omega

theorem unpackbits_graceful_truncation_witness :
    unpackbits [129, 5] [129, 5].length 3 = (3, (fullDecode [129, 5]).take 3) ∧
      ((fullDecode [129, 5]).take 3).length = 3 :=
  unpackbits_graceful_truncation [129, 5] (by simp [validStream, IS_DIFF, IS_REPT]) 3
    (by simp [fullDecode, IS_DIFF, IS_REPT, DECODE_REPT])

end Packbits
